import Mathlib

/-!
# libtubecable command stream: a verification development

Shallow embedding of `tubecable.h` (the command buffer and its inline
byte-level appends, the command and graphics opcodes, the Huffman table sizes,
the CRC generator constant and the mode register tables) together with
theorems about it.  Functions that the header only declares (`dl_reg_set`,
`dl_reg_set_all`, `dl_huffman_append`, `dl_huffman_compress`) are modelled from
the specification and marked as such.

Conventions of the embedding

* `uint8_t`, `uint16_t` and `uint32_t` values are natural numbers; a parameter of
  such a type is reduced modulo `2^8`, `2^16`, `2^32` where the C call converts
  its argument.
* `int` fields (`pos`, `bitpos`, `size`) are unbounded integers.  Signed overflow
  is undefined in C; the model agrees with the C arithmetic as long as the
  values stay in the range of `int`, which is the case whenever the position
  stays below the capacity `size`, itself an `int`.
* `buffer` is a pointer in C.  It is modelled as the memory seen through that
  pointer: a total map from offsets to bytes.  The inline appends of the header
  store through the pointer without looking at `size`; the model does the same,
  so a store at an offset `>= size` is visible as a store outside the capacity.
-/

namespace Tubecable

/-! ## Machine integers -/

/-- Conversion of a value to `uint8_t`. -/
def u8 (v : Nat) : Nat := v % 256

/-- Conversion of a value to `uint16_t`. -/
def u16 (v : Nat) : Nat := v % 65536

/-- Conversion of a value to `uint32_t`. -/
def u32 (v : Nat) : Nat := v % 4294967296

/-! ## Command buffer (`tubecable.h`, lines 80-126) -/

/-- Command stream descriptor: `typedef struct { uint8_t* buffer; int pos, bitpos, size; }`. -/
structure dl_cmdstream where
  buffer : Int → Nat
  pos : Int
  bitpos : Int
  size : Int

/-- Insert one byte: `cs->buffer[cs->pos++] = val;`. -/
def insertb (cs : dl_cmdstream) (val : Nat) : dl_cmdstream :=
  dl_cmdstream.mk (fun i => if i = cs.pos then u8 val else cs.buffer i)
    (cs.pos + 1) cs.bitpos cs.size

/-- Insert one word: high byte, then low byte. -/
def insertw (cs : dl_cmdstream) (val : Nat) : dl_cmdstream :=
  let val := u16 val
  let cs := insertb cs ((val >>> 8) &&& 0xFF)
  insertb cs (val &&& 0xFF)

/-- Insert a device memory address: three bytes of a `uint32_t`. -/
def inserta (cs : dl_cmdstream) (address : Nat) : dl_cmdstream :=
  let address := u32 address
  let cs := insertb cs ((address >>> 16) &&& 0xFF)
  let cs := insertb cs ((address >>> 8) &&& 0xFF)
  insertb cs (address &&& 0xFF)

/-- Insert a doubleword: four bytes of a `uint32_t`. -/
def insertd (cs : dl_cmdstream) (val : Nat) : dl_cmdstream :=
  let val := u32 val
  let cs := insertb cs ((val >>> 24) &&& 0xFF)
  let cs := insertb cs ((val >>> 16) &&& 0xFF)
  let cs := insertb cs ((val >>> 8) &&& 0xFF)
  insertb cs (val &&& 0xFF)

/-- Insert a sequence of bytes:
`memcpy( cs->buffer+cs->pos, buf, size ); cs->pos += size;`.
The source `buf` is the memory read through a `uint8_t*`; `memcpy` copies the
bytes `buf[0] .. buf[size-1]`.  The model is faithful for `size >= 0` only: a negative
`size` reaches `memcpy` as a huge `size_t`, which is undefined in C, so the theorems
about `insert` take the size as a natural number. -/
def insert (cs : dl_cmdstream) (size : Int) (buf : Nat → Nat) : dl_cmdstream :=
  dl_cmdstream.mk
    (fun i => if cs.pos ≤ i ∧ i < cs.pos + size then u8 (buf (i - cs.pos).toNat) else cs.buffer i)
    (cs.pos + size) cs.bitpos cs.size

/-- The `n` bytes of the buffer starting at offset `start`, in increasing offset order. -/
def bytesAt (cs : dl_cmdstream) (start : Int) (n : Nat) : List Nat :=
  (List.range n).map (fun (k : Nat) => cs.buffer (start + (k : Int)))

/-- The invariant of the specification's data model: bit offset in `[0,7]`, byte position
between `0` and the capacity. -/
def cmdstream_inv (cs : dl_cmdstream) : Prop :=
  0 ≤ cs.bitpos ∧ cs.bitpos ≤ 7 ∧ 0 ≤ cs.pos ∧ cs.pos ≤ cs.size

instance (cs : dl_cmdstream) : Decidable (cmdstream_inv cs) := by
  unfold cmdstream_inv; infer_instance

/-- The effect of an unchecked append of the bytes `data` that turns `cs` into `cs1`: the
position advances by the number of bytes, the capacity and the bit offset stay as they
are, all the bytes are stored from the old position on, and no other offset is touched. -/
def appendsBytes (cs cs1 : dl_cmdstream) (data : List Nat) : Prop :=
  cs1.pos = cs.pos + (data.length : Int)
  ∧ cs1.size = cs.size
  ∧ cs1.bitpos = cs.bitpos
  ∧ bytesAt cs1 cs.pos data.length = data
  ∧ ∀ i : Int, i < cs.pos ∨ cs.pos + (data.length : Int) ≤ i → cs1.buffer i = cs.buffer i

/-- A command stream that is full: capacity 2, both bytes used, byte-aligned. -/
def fullStream : dl_cmdstream := ⟨fun _ => 0, 2, 0, 2⟩

/-- A command stream in the middle of a bit sequence: capacity 4, three bits (`101`, value
`0x05`) already placed in the byte at position 0. -/
def midBitStream : dl_cmdstream := ⟨fun i => if i = 0 then 0x05 else 0, 0, 3, 4⟩

/-- A fresh command stream of the given capacity: position 0, byte-aligned, memory zeroed. -/
def freshStream (size : Int) : dl_cmdstream := ⟨fun _ => 0, 0, 0, size⟩

/-! ## Commands (`tubecable.h`, lines 131-136) -/

def DL_CMD_START : Nat := 0xAF
def DL_CMD_SET_REG : Nat := 0x20
def DL_CMD_UNKNOWN : Nat := 0x40
def DL_CMD_SYNC : Nat := 0xA0
def DL_CMD_HUFFMAN : Nat := 0xE0

/-! ## Register commands (`tubecable.h`, lines 152-181) -/

def DL_REG_SYNC : Nat := 0xFF

/-- The macro `DL_REG_MODE_640x480_60`, the initialiser of a `uint8_t [0x1D]`. -/
def DL_REG_MODE_640x480_60 : List Nat :=
  [0x00, 0x99, 0x30, 0x26, 0x94, 0x60, 0xa9, 0xce, 0x60, 0x07, 0xb3, 0x0f, 0x79, 0xff, 0xff,
   0x02, 0x80, 0x83, 0xbc, 0xff, 0xfc, 0xff, 0xff, 0x01, 0xe0, 0x01, 0x02, 0xab, 0x13]

/-- Modelled from the spec: the body of `dl_reg_set` (declared at `tubecable.h:168`, defined
outside the header).  Spec 4.2: "`set_register(buf, reg, val)`: emits the fixed triple
`[SET_REG, reg, val]`". -/
def dl_reg_set (cs : dl_cmdstream) (reg val : Nat) : dl_cmdstream :=
  let cs := insertb cs DL_CMD_SET_REG
  let cs := insertb cs reg
  insertb cs val

/-- Modelled from the spec: the body of `dl_reg_set_all` (declared at `tubecable.h:171`,
defined outside the header).  Spec 4.2: the 29 register writes, registers `0 .. 0x1C` in
order, bracketed by a "hold updates" write (sync register = `0x00`) before and a "resume"
write (sync register = `0xFF`) after. -/
def dl_reg_set_all (cs : dl_cmdstream) (values : List Nat) : dl_cmdstream :=
  let cs := dl_reg_set cs DL_REG_SYNC 0x00
  let cs := (List.range 0x1D).foldl (fun s i => dl_reg_set s i (values.getD i 0)) cs
  dl_reg_set cs DL_REG_SYNC 0xFF

/-- The byte stream the specification prescribes for a full register update: the hold
triple, one triple per register `0 .. 0x1C`, the resume triple. -/
def regSetAllStream (values : List Nat) : List Nat :=
  [0x20, 0xFF, 0x00] ++ (List.range 29).flatMap (fun i => [0x20, i, values.getD i 0])
    ++ [0x20, 0xFF, 0xFF]

/-! ## Graphics commands (`tubecable.h`, lines 247-253) -/

def DL_GFX_BASE : Nat := 0x60
def DL_GFX_WORD : Nat := 0x08
def DL_GFX_COMP : Nat := 0x10

def DL_GFX_WRITE : Nat := DL_GFX_BASE ||| 0x00
def DL_GFX_RLE : Nat := DL_GFX_BASE ||| 0x01
def DL_GFX_COPY : Nat := DL_GFX_BASE ||| 0x02

/-- The three graphics commands. -/
def gfxCommands : List Nat := [DL_GFX_WRITE, DL_GFX_RLE, DL_GFX_COPY]

/-- The four subsets of the flag set, as (word flag present, compressed flag present). -/
def gfxFlagSets : List (Bool × Bool) := [(false, false), (true, false), (false, true), (true, true)]

/-- The opcode byte `c | F` for a command `c` and a flag subset `F`. -/
def gfxOpcode (c : Nat) (F : Bool × Bool) : Nat :=
  c ||| (if F.1 then DL_GFX_WORD else 0) ||| (if F.2 then DL_GFX_COMP else 0)

/-- The expression `op & ~(0x08|0x10)` on a 32-bit `int`. -/
def gfxCommandOf (op : Nat) : Nat :=
  op &&& (0xFFFFFFFF ^^^ (DL_GFX_WORD ||| DL_GFX_COMP))

/-- The non-graphics command bytes of the header. -/
def otherCommands : List Nat :=
  [DL_CMD_START, DL_CMD_SET_REG, DL_CMD_UNKNOWN, DL_CMD_SYNC, DL_CMD_HUFFMAN]

/-! ## Compression commands (`tubecable.h`, lines 276-302) -/

def DL_HUFFMAN_COUNT : Nat := 1 <<< 15
def DL_HUFFMAN_SIZE : Nat := 2 * DL_HUFFMAN_COUNT + 1
def DL_HUFFMAN_BLOCKSIZE : Nat := 512

/-- Conversion of an `int` to `int16_t` (the parameter of `dl_huffman_append`): reduction
modulo `2^16` into `[-32768, 32767]`. -/
def toInt16 (x : Int) : Int := (x + 32768) % 65536 - 32768

/-- Modelled from the spec: the table index of a delta.  The body of `dl_huffman_append`
(declared at `tubecable.h:302`) is outside the header; the spec's table contract says the
65537 entries are "indexed by `delta+32768`". -/
def huffman_index (delta : Int) : Int := delta + DL_HUFFMAN_COUNT

/-! ## Mode register tables (`tubecable.h`, lines 152-228) -/

def DL_REG_XRES_MSB : Nat := 0x0F
def DL_REG_XRES_LSB : Nat := 0x10
def DL_REG_YRES_MSB : Nat := 0x17
def DL_REG_YRES_LSB : Nat := 0x18

/-- The macro `DL_REG_MODE_800x480_60`, the initialiser of a `uint8_t [0x1D]`. -/
def DL_REG_MODE_800x480_60 : List Nat :=
  [0x00, 0x20, 0x3c, 0x7a, 0xc9, 0xf2, 0x6c, 0x48, 0xf9, 0x70, 0x53, 0xff, 0xff, 0x21, 0x27,
   0x03, 0x20, 0x91, 0xf3, 0xff, 0xff, 0xff, 0xf9, 0x01, 0xe0, 0x01, 0x02, 0xc8, 0x19]

/-- The macro `DL_REG_MODE_800x600_60`, the initialiser of a `uint8_t [0x1D]`. -/
def DL_REG_MODE_800x600_60 : List Nat :=
  [0x00, 0x20, 0x3c, 0x7a, 0xc9, 0x93, 0x60, 0xc8, 0xc7, 0x70, 0x53, 0xff, 0xff, 0x21, 0x27,
   0x03, 0x20, 0x91, 0x8f, 0xff, 0xff, 0xff, 0xf2, 0x02, 0x58, 0x01, 0x02, 0x40, 0x1f]

/-- The macro `DL_REG_MODE_1024x768_60`, the initialiser of a `uint8_t [0x1D]`. -/
def DL_REG_MODE_1024x768_60 : List Nat :=
  [0x00, 0x36, 0x18, 0xd5, 0x10, 0x60, 0xa9, 0x7b, 0x33, 0xa1, 0x2b, 0x27, 0x32, 0xff, 0xff,
   0x04, 0x00, 0xd9, 0x9a, 0xff, 0xca, 0xff, 0xff, 0x03, 0x00, 0x04, 0x03, 0xc8, 0x32]

/-- The macro `DL_REG_MODE_1280x1024_60`, the initialiser of a `uint8_t [0x1D]`. -/
def DL_REG_MODE_1280x1024_60 : List Nat :=
  [0x00, 0x98, 0xf8, 0x0d, 0x57, 0x2a, 0x55, 0x4d, 0x54, 0xca, 0x0d, 0xff, 0xff, 0x94, 0x43,
   0x05, 0x00, 0x9a, 0xa8, 0xff, 0xff, 0xff, 0xf9, 0x04, 0x00, 0x04, 0x02, 0x60, 0x54]

/-- The macro `DL_REG_MODE_1360x768_60`, the initialiser of a `uint8_t [0x1D]`. -/
def DL_REG_MODE_1360x768_60 : List Nat :=
  [0x01, 0xf8, 0x42, 0x9e, 0x64, 0xf2, 0x6c, 0x28, 0x0f, 0xe8, 0x61, 0xff, 0xff, 0x94, 0x43,
   0x05, 0x50, 0x40, 0x7b, 0xff, 0xff, 0xff, 0xca, 0x03, 0x00, 0x04, 0x02, 0xcc, 0x42]

/-- The macro `DL_REG_MODE_1366x768_60`, the initialiser of a `uint8_t [0x1D]`. -/
def DL_REG_MODE_1366x768_60 : List Nat :=
  [0x01, 0x19, 0x1e, 0x1f, 0xb0, 0x93, 0x60, 0x40, 0x7b, 0x36, 0xe8, 0x27, 0x32, 0xff, 0xff,
   0x05, 0x56, 0x03, 0xd9, 0xff, 0xff, 0xfc, 0xa7, 0x03, 0x00, 0x04, 0x02, 0x9a, 0x42]

/-- The macro `DL_REG_MODE_1400x1050_60`, the initialiser of a `uint8_t [0x1D]`. -/
def DL_REG_MODE_1400x1050_60 : List Nat :=
  [0x01, 0x42, 0x24, 0x38, 0x36, 0xc1, 0x52, 0xd9, 0x29, 0xea, 0xb8, 0x32, 0x60, 0xff, 0xff,
   0x05, 0x78, 0xc9, 0x4e, 0xff, 0xff, 0xff, 0xf2, 0x04, 0x1a, 0x04, 0x02, 0x1e, 0x5f]

/-- The macro `DL_REG_MODE_1600x1200_60`, the initialiser of a `uint8_t [0x1D]`. -/
def DL_REG_MODE_1600x1200_60 : List Nat :=
  [0x01, 0xcf, 0xa4, 0x3c, 0x4e, 0x55, 0x73, 0x71, 0x2b, 0x71, 0x52, 0xff, 0xff, 0xee, 0xca,
   0x06, 0x40, 0xe2, 0x57, 0xff, 0xff, 0xff, 0xf9, 0x04, 0xb0, 0x04, 0x02, 0x90, 0x7e]

/-- The macro `DL_REG_MODE_1920x1080_60`, the initialiser of a `uint8_t [0x1D]`. -/
def DL_REG_MODE_1920x1080_60 : List Nat :=
  [0x01, 0x73, 0xa6, 0x28, 0xb3, 0x54, 0xaa, 0x41, 0x5d, 0x0d, 0x9f, 0x32, 0x60, 0xff, 0xff,
   0x07, 0x80, 0x0a, 0xea, 0xff, 0xf9, 0xff, 0xff, 0x04, 0x38, 0x04, 0x02, 0xe0, 0x7c]

/-- The ten predefined mode tables with the width and height of their names. -/
def modeTables : List (List Nat × Nat × Nat) :=
  [(DL_REG_MODE_640x480_60, 640, 480), (DL_REG_MODE_800x480_60, 800, 480),
   (DL_REG_MODE_800x600_60, 800, 600), (DL_REG_MODE_1024x768_60, 1024, 768),
   (DL_REG_MODE_1280x1024_60, 1280, 1024), (DL_REG_MODE_1360x768_60, 1360, 768),
   (DL_REG_MODE_1366x768_60, 1366, 768), (DL_REG_MODE_1400x1050_60, 1400, 1050),
   (DL_REG_MODE_1600x1200_60, 1600, 1200), (DL_REG_MODE_1920x1080_60, 1920, 1080)]

/-- The horizontal resolution stored in a register table: `values[XRES_MSB]*256 + values[XRES_LSB]`. -/
def modeXres (values : List Nat) : Nat :=
  values.getD DL_REG_XRES_MSB 0 * 256 + values.getD DL_REG_XRES_LSB 0

/-- The vertical resolution stored in a register table: `values[YRES_MSB]*256 + values[YRES_LSB]`. -/
def modeYres (values : List Nat) : Nat :=
  values.getD DL_REG_YRES_MSB 0 * 256 + values.getD DL_REG_YRES_LSB 0

/-! ## Encryption constants (`tubecable.h`, lines 44-50) -/

def DL_CRYPT_CRC12 : Nat := 0x180F
def DL_CRYPT_LFSR12 : Nat := 0x0829

/-- The exponents of the generator polynomial named in the header comment:
`x^12 + x^11 + x^3 + x^2 + x + 1`. -/
def crc12Exponents : List Nat := [12, 11, 3, 2, 1, 0]

/-- One step of the long division of polynomials over GF(2), polynomials being bit masks:
the next dividend bit `b` is shifted into the remainder register `r`, and the generator
`g` of degree `deg` is subtracted (xor) when the register reaches that degree. -/
def gf2_rem_step (g deg : Nat) (r : Nat) (b : Bool) : Nat :=
  let r1 := 2 * r + b.toNat
  if r1.testBit deg then r1 ^^^ g else r1

/-- The remainder of the polynomial with coefficient bits `bits` (highest power first)
modulo the generator `g` of degree `deg`, by long division over GF(2). -/
def gf2_rem (g deg : Nat) (bits : List Bool) : Nat :=
  bits.foldl (gf2_rem_step g deg) 0

/-! ## Huffman compression (declared at `tubecable.h`, lines 288-306) -/

/-- Descriptor for one Huffman sequence: `typedef struct { int bitcount; const char* sequence; }`;
the sequence is a string of the characters `0` and `1`. -/
structure dl_huffman_code where
  bitcount : Int
  sequence : List Char

/-- Modelled from the spec: the entry of the userspace table used for a delta (the body of
`dl_huffman_append` is outside the header).  The table, `dl_huffman_storage` in C, is a
parameter; its entries are "indexed by `delta+32768`". -/
def huffman_lookup (table : Nat → dl_huffman_code) (delta : Int) : dl_huffman_code :=
  table (huffman_index delta).toNat

/-- Totality of a table, spec section 8: every delta in `[-32768, 32767]` has an entry with
bit-length at least 1 and a pattern of exactly that length. -/
def huffman_total (table : Nat → dl_huffman_code) : Prop :=
  ∀ d : Int, -32768 ≤ d → d ≤ 32767 →
    1 ≤ (huffman_lookup table d).bitcount
    ∧ ((huffman_lookup table d).sequence.length : Int) = (huffman_lookup table d).bitcount

/-- Modelled from the spec: `append_bits` for a single bit (no such function is in the
header).  Spec 4.1: bits are packed "most-significant-bit first, crossing byte boundaries
as needed, advancing the bit offset and, on completing a byte, the byte position". -/
def append_bit (cs : dl_cmdstream) (b : Bool) : dl_cmdstream :=
  let mask := 0x80 >>> cs.bitpos.toNat
  let old := cs.buffer cs.pos
  let byte := if b then old ||| mask else old &&& (0xFF ^^^ mask)
  let buffer := fun i => if i = cs.pos then byte else cs.buffer i
  if cs.bitpos + 1 = 8 then dl_cmdstream.mk buffer (cs.pos + 1) 0 cs.size
  else dl_cmdstream.mk buffer cs.pos (cs.bitpos + 1) cs.size

/-- Modelled from the spec: `align_to_byte` (no such function is in the header).  Spec 4.1:
"pads remaining bits in the current byte with zero and advances"; nothing is pending when
the bit offset is 0. -/
def align_to_byte (cs : dl_cmdstream) : dl_cmdstream :=
  if cs.bitpos = 0 then cs
  else dl_cmdstream.mk
    (fun i => if i = cs.pos then cs.buffer cs.pos &&& (0xFF ^^^ (0xFF >>> cs.bitpos.toNat))
      else cs.buffer i)
    (cs.pos + 1) 0 cs.size

/-- Modelled from the spec: the body of `dl_huffman_append` (declared at `tubecable.h:302`,
defined outside the header).  The `int16_t` parameter converts the value; the code of
that delta is looked up and its `bitcount` bits are appended in order. -/
def dl_huffman_append (table : Nat → dl_huffman_code) (cs : dl_cmdstream) (value : Int) :
    dl_cmdstream :=
  let code := huffman_lookup table (toInt16 value)
  (List.range code.bitcount.toNat).foldl
    (fun s i => append_bit s (decide (code.sequence.getD i '0' = '1'))) cs

/-- The number of bits `dl_huffman_append` emits for a value: the `bitcount` of its code. -/
def huffman_code_len (table : Nat → dl_huffman_code) (value : Int) : Nat :=
  (huffman_lookup table (toInt16 value)).bitcount.toNat

/-- Modelled from the spec: step 1 of `compress` (spec 4.3): "delta_i = pixel[i] - pixel[i-1]
for i>0; the first pixel of the block is encoded as a delta from the block's starting
reference (zero if none established)".  Pixels are `uint16_t`. -/
def huffman_deltas (pcount : Int) (pixels : Nat → Nat) : List Int :=
  (List.range pcount.toNat).map
    (fun i => (u16 (pixels i) : Int) - (if i = 0 then 0 else (u16 (pixels (i - 1)) : Int)))

/-- Modelled from the spec: the size of the command header of a compressed block, "opcode+flags,
device address, pixel count": one opcode byte, a 24-bit address, an 8-bit count. -/
def huffmanHeaderBytes : Nat := 5

/-- The number of whole bytes taken by a bit-packed payload padded to a byte boundary. -/
def paddedBytes (bits : Nat) : Nat := (bits + 7) / 8

/-- Modelled from the spec: step 3 of `compress` (spec 4.3) for the pixels after the first:
"stop adding further pixels once the next code's length would cause total emitted bytes
(header + bit-packed payload, byte-padded) to exceed `blocksize`, or once `pixel_count`
pixels are exhausted".  `bits` is the payload so far, `lens` the code lengths still to come;
the result is the number of further pixels taken. -/
def huffman_fit (blocksize : Int) : Nat → List Nat → Nat
  | _, [] => 0
  | bits, len :: rest =>
    if ((huffmanHeaderBytes + paddedBytes (bits + len) : Nat) : Int) ≤ blocksize then
      1 + huffman_fit blocksize (bits + len) rest
    else 0

/-- Modelled from the spec: the number of pixels one `compress` call consumes.  Spec 4.3,
invariant: "must always consume at least one pixel per call even if its code alone would
overflow `blocksize`"; further pixels are taken as long as they fit. -/
def huffman_consumed (blocksize : Int) : List Nat → Nat
  | [] => 0
  | len :: rest => 1 + huffman_fit blocksize len rest

/-- Modelled from the spec: the body of `dl_huffman_compress` (declared at `tubecable.h:306`,
defined outside the header), spec 4.3 steps 1-5: the command header (opcode
`DL_GFX_BASE | DL_GFX_WORD | DL_GFX_COMP`, address, pixels-consumed count) is emitted
before the payload bits, the codes of the consumed deltas follow, then `align_to_byte`.
The result is the buffer together with the returned number of consumed pixels. -/
def dl_huffman_compress (table : Nat → dl_huffman_code) (cs : dl_cmdstream) (addr : Nat)
    (pcount : Int) (pixels : Nat → Nat) (blocksize : Int) : dl_cmdstream × Nat :=
  let deltas := huffman_deltas pcount pixels
  let n := huffman_consumed blocksize (deltas.map (huffman_code_len table))
  let cs := insertb cs (DL_GFX_BASE ||| DL_GFX_WORD ||| DL_GFX_COMP)
  let cs := inserta cs addr
  let cs := insertb cs n
  let cs := (deltas.take n).foldl (dl_huffman_append table) cs
  (align_to_byte cs, n)

/-- A total, prefix-free table used in examples: the code of table entry `k` is the 16-bit
binary expansion of `k`, most significant bit first. -/
def fixed16Table (k : Nat) : dl_huffman_code :=
  ⟨16, (List.range 16).map (fun j => if k.testBit (15 - j) then '1' else '0')⟩

/-! ## Basic facts about `insertb` -/

theorem insertb_pos (cs : dl_cmdstream) (v : Nat) : (insertb cs v).pos = cs.pos + 1 := rfl

theorem insertb_bitpos (cs : dl_cmdstream) (v : Nat) : (insertb cs v).bitpos = cs.bitpos := rfl

theorem insertb_size (cs : dl_cmdstream) (v : Nat) : (insertb cs v).size = cs.size := rfl

theorem insertb_buffer (cs : dl_cmdstream) (v : Nat) (i : Int) :
    (insertb cs v).buffer i = if i = cs.pos then u8 v else cs.buffer i := rfl

theorem and_255 (x : Nat) : x &&& 0xFF = x % 256 :=
  Nat.and_pow_two_sub_one_eq_mod x 8

theorem u8_mod (x : Nat) : u8 (x % 256) = x % 256 := by
  simp [u8]

theorem u8_and_255 (x : Nat) : u8 (x &&& 0xFF) = x &&& 0xFF := by
  rw [and_255, u8_mod]

theorem u8_of_lt {x : Nat} (h : x < 256) : u8 x = x := Nat.mod_eq_of_lt h

/-! ## The multi-byte appends, byte by byte -/

theorem insertw_pos (cs : dl_cmdstream) (v : Nat) : (insertw cs v).pos = cs.pos + 2 := by
  simp only [insertw, insertb_pos]; omega

theorem inserta_pos (cs : dl_cmdstream) (a : Nat) : (inserta cs a).pos = cs.pos + 3 := by
  simp only [inserta, insertb_pos]; omega

theorem insertd_pos (cs : dl_cmdstream) (v : Nat) : (insertd cs v).pos = cs.pos + 4 := by
  simp only [insertd, insertb_pos]; omega

theorem insert_pos (cs : dl_cmdstream) (n : Int) (buf : Nat → Nat) :
    (insert cs n buf).pos = cs.pos + n := rfl

theorem insertw_buffer (cs : dl_cmdstream) (v : Nat) (i : Int) :
    (insertw cs v).buffer i =
      if i = cs.pos then (u16 v >>> 8) &&& 0xFF
      else if i = cs.pos + 1 then u16 v &&& 0xFF
      else cs.buffer i := by
  simp only [insertw, insertb_buffer, insertb_pos, u8_and_255]
  split_ifs <;> first | rfl | omega

theorem inserta_buffer (cs : dl_cmdstream) (a : Nat) (i : Int) :
    (inserta cs a).buffer i =
      if i = cs.pos then (u32 a >>> 16) &&& 0xFF
      else if i = cs.pos + 1 then (u32 a >>> 8) &&& 0xFF
      else if i = cs.pos + 2 then u32 a &&& 0xFF
      else cs.buffer i := by
  simp only [inserta, insertb_buffer, insertb_pos, u8_and_255]
  split_ifs <;> first | rfl | omega

theorem insertd_buffer (cs : dl_cmdstream) (v : Nat) (i : Int) :
    (insertd cs v).buffer i =
      if i = cs.pos then (u32 v >>> 24) &&& 0xFF
      else if i = cs.pos + 1 then (u32 v >>> 16) &&& 0xFF
      else if i = cs.pos + 2 then (u32 v >>> 8) &&& 0xFF
      else if i = cs.pos + 3 then u32 v &&& 0xFF
      else cs.buffer i := by
  simp only [insertd, insertb_buffer, insertb_pos, u8_and_255]
  split_ifs <;> first | rfl | omega

theorem insert_buffer (cs : dl_cmdstream) (n : Int) (buf : Nat → Nat) (i : Int) :
    (insert cs n buf).buffer i =
      if cs.pos ≤ i ∧ i < cs.pos + n then u8 (buf (i - cs.pos).toNat) else cs.buffer i := rfl

theorem insertw_frame (cs : dl_cmdstream) (v : Nat) :
    (insertw cs v).bitpos = cs.bitpos ∧ (insertw cs v).size = cs.size := ⟨rfl, rfl⟩

theorem inserta_frame (cs : dl_cmdstream) (a : Nat) :
    (inserta cs a).bitpos = cs.bitpos ∧ (inserta cs a).size = cs.size := ⟨rfl, rfl⟩

theorem insertd_frame (cs : dl_cmdstream) (v : Nat) :
    (insertd cs v).bitpos = cs.bitpos ∧ (insertd cs v).size = cs.size := ⟨rfl, rfl⟩

theorem insert_frame (cs : dl_cmdstream) (n : Int) (buf : Nat → Nat) :
    (insert cs n buf).bitpos = cs.bitpos ∧ (insert cs n buf).size = cs.size := ⟨rfl, rfl⟩

theorem bytesAt_eq_of_get (cs : dl_cmdstream) (start : Int) (data : List Nat)
    (h : ∀ k : Nat, k < data.length → cs.buffer (start + (k : Int)) = data.getD k 0) :
    bytesAt cs start data.length = data := by
  apply List.ext_getElem
  · simp [bytesAt]
  · intro k h1 h2
    simp only [bytesAt, List.getElem_map, List.getElem_range]
    rw [h k h2, List.getD_eq_getElem _ _ h2]

theorem appendsBytes_insertw (cs : dl_cmdstream) (v : Nat) :
    appendsBytes cs (insertw cs v) [(u16 v >>> 8) &&& 0xFF, u16 v &&& 0xFF] := by
  refine ⟨insertw_pos cs v, rfl, rfl, ?_, ?_⟩
  · apply bytesAt_eq_of_get
    intro k hk
    simp only [List.length_cons, List.length_nil] at hk
    interval_cases k <;> rw [insertw_buffer] <;> simp
  · intro i hi
    simp only [List.length_cons, List.length_nil] at hi
    rw [insertw_buffer, if_neg (by omega), if_neg (by push_cast at hi; omega)]

theorem appendsBytes_inserta (cs : dl_cmdstream) (a : Nat) :
    appendsBytes cs (inserta cs a)
      [(u32 a >>> 16) &&& 0xFF, (u32 a >>> 8) &&& 0xFF, u32 a &&& 0xFF] := by
  refine ⟨inserta_pos cs a, rfl, rfl, ?_, ?_⟩
  · apply bytesAt_eq_of_get
    intro k hk
    simp only [List.length_cons, List.length_nil] at hk
    interval_cases k <;> rw [inserta_buffer] <;> simp
  · intro i hi
    simp only [List.length_cons, List.length_nil] at hi
    push_cast at hi
    rw [inserta_buffer, if_neg (by omega), if_neg (by omega), if_neg (by omega)]

theorem appendsBytes_insertd (cs : dl_cmdstream) (v : Nat) :
    appendsBytes cs (insertd cs v)
      [(u32 v >>> 24) &&& 0xFF, (u32 v >>> 16) &&& 0xFF, (u32 v >>> 8) &&& 0xFF,
        u32 v &&& 0xFF] := by
  refine ⟨insertd_pos cs v, rfl, rfl, ?_, ?_⟩
  · apply bytesAt_eq_of_get
    intro k hk
    simp only [List.length_cons, List.length_nil] at hk
    interval_cases k <;> rw [insertd_buffer] <;> simp
  · intro i hi
    simp only [List.length_cons, List.length_nil] at hi
    push_cast at hi
    rw [insertd_buffer, if_neg (by omega), if_neg (by omega), if_neg (by omega),
      if_neg (by omega)]

theorem dl_cmdstream_ext (a b : dl_cmdstream) (hbuf : ∀ i, a.buffer i = b.buffer i)
    (hpos : a.pos = b.pos) (hbit : a.bitpos = b.bitpos) (hsize : a.size = b.size) : a = b := by
  cases a
  cases b
  simp only [dl_cmdstream.mk.injEq]
  exact ⟨funext hbuf, hpos, hbit, hsize⟩

theorem foldl_insertb_pos (l : List Nat) (cs : dl_cmdstream) :
    (l.foldl insertb cs).pos = cs.pos + (l.length : Int) := by
  induction l generalizing cs with
  | nil => simp
  | cons x xs ih =>
    rw [List.foldl_cons, ih, insertb_pos, List.length_cons]
    push_cast
    omega

theorem foldl_insertb_frame (l : List Nat) (cs : dl_cmdstream) :
    (l.foldl insertb cs).bitpos = cs.bitpos ∧ (l.foldl insertb cs).size = cs.size := by
  induction l generalizing cs with
  | nil => exact ⟨rfl, rfl⟩
  | cons x xs ih =>
    rw [List.foldl_cons]
    exact ⟨(ih (insertb cs x)).1, (ih (insertb cs x)).2⟩

theorem foldl_insertb_buffer (l : List Nat) (cs : dl_cmdstream) (i : Int) :
    (l.foldl insertb cs).buffer i =
      if cs.pos ≤ i ∧ i < cs.pos + (l.length : Int) then u8 (l.getD (i - cs.pos).toNat 0)
      else cs.buffer i := by
  induction l generalizing cs with
  | nil =>
    rw [List.foldl_nil, if_neg]
    simp
  | cons x xs ih =>
    rw [List.foldl_cons, ih, insertb_pos, insertb_buffer, List.length_cons]
    push_cast
    by_cases h0 : i = cs.pos
    · subst h0
      rw [if_neg (by omega), if_pos rfl, if_pos (by omega)]
      simp
    · by_cases h1 : cs.pos + 1 ≤ i ∧ i < cs.pos + 1 + (xs.length : Int)
      · rw [if_pos h1, if_pos (by omega)]
        have : (i - cs.pos).toNat = (i - (cs.pos + 1)).toNat + 1 := by omega
        rw [this, List.getD_cons_succ]
      · rw [if_neg h1, if_neg h0, if_neg (by omega)]

/-- The bytes stored by a run of `insertb` calls, read back. -/
theorem bytesAt_foldl_insertb (l : List Nat) (cs : dl_cmdstream) :
    bytesAt (l.foldl insertb cs) cs.pos l.length = l.map u8 := by
  have h := bytesAt_eq_of_get (l.foldl insertb cs) cs.pos (l.map u8) (by
    intro k hk
    rw [List.length_map] at hk
    rw [foldl_insertb_buffer, if_pos (by omega)]
    have : (cs.pos + (k : Int) - cs.pos).toNat = k := by simp
    rw [this, List.getD_eq_getElem _ _ hk, List.getD_eq_getElem _ _ (by simpa using hk)]
    simp)
  simpa using h

/-! ## Byte-order theorems -/

/-- C1: for a command buffer with `pos + 3 <= size` and a 32-bit address `a`, `inserta`
stores `(a >> 16) & 0xFF`, `(a >> 8) & 0xFF`, `a & 0xFF` at `pos`, `pos+1`, `pos+2` (most
significant byte first) and advances `pos` by exactly 3; in particular
`inserta(0x123456)` appends `[0x12, 0x34, 0x56]`. -/
theorem inserta_big_endian (cs : dl_cmdstream) (a : Nat)
    (_hfit : cs.pos + 3 ≤ cs.size) (ha : a < 2 ^ 32) :
    (inserta cs a).buffer cs.pos = (a >>> 16) &&& 0xFF
    ∧ (inserta cs a).buffer (cs.pos + 1) = (a >>> 8) &&& 0xFF
    ∧ (inserta cs a).buffer (cs.pos + 2) = a &&& 0xFF
    ∧ (inserta cs a).pos = cs.pos + 3
    ∧ bytesAt (inserta cs 0x123456) cs.pos 3 = [0x12, 0x34, 0x56] := by
  have hu : u32 a = a := Nat.mod_eq_of_lt ha
  refine ⟨?_, ?_, ?_, inserta_pos cs a, ?_⟩
  · rw [inserta_buffer, hu]; split_ifs <;> first | rfl | omega
  · rw [inserta_buffer, hu]; split_ifs <;> first | rfl | omega
  · rw [inserta_buffer, hu]; split_ifs <;> first | rfl | omega
  · have h0 : (inserta cs 0x123456).buffer (cs.pos + ((0 : Nat) : Int)) = 0x12 := by
      rw [inserta_buffer]; split_ifs <;> first | rfl | omega
    have h1 : (inserta cs 0x123456).buffer (cs.pos + ((1 : Nat) : Int)) = 0x34 := by
      rw [inserta_buffer]; split_ifs <;> first | rfl | omega
    have h2 : (inserta cs 0x123456).buffer (cs.pos + ((2 : Nat) : Int)) = 0x56 := by
      rw [inserta_buffer]; split_ifs <;> first | rfl | omega
    simp only [bytesAt, List.range_succ, List.range_zero, List.nil_append, List.cons_append,
      List.map_cons, List.map_nil, h0, h1, h2]

/-- Witness for C1 on a fresh 8-byte stream and the address `0x123456`. -/
theorem inserta_big_endian_witness :
    (freshStream 8).pos + 3 ≤ (freshStream 8).size ∧ 0x123456 < 2 ^ 32
    ∧ (inserta (freshStream 8) 0x123456).pos = (freshStream 8).pos + 3
    ∧ bytesAt (inserta (freshStream 8) 0x123456) (freshStream 8).pos 3 = [0x12, 0x34, 0x56] :=
  ⟨by decide, by decide,
    (inserta_big_endian (freshStream 8) 0x123456 (by decide) (by decide)).2.2.2.1,
    (inserta_big_endian (freshStream 8) 0x123456 (by decide) (by decide)).2.2.2.2⟩

/-- C6: for a command buffer with `pos + 2 <= size` and a 16-bit value `v`, `insertw` stores
the high byte `v >> 8` at `pos` and the low byte `v & 0xFF` at `pos+1` (big-endian) and
advances `pos` by exactly 2, so that `buffer[pos]*256 + buffer[pos+1]` read back equals `v`. -/
theorem insertw_big_endian (cs : dl_cmdstream) (v : Nat)
    (_hfit : cs.pos + 2 ≤ cs.size) (hv : v < 2 ^ 16) :
    (insertw cs v).buffer cs.pos = v >>> 8
    ∧ (insertw cs v).buffer (cs.pos + 1) = v &&& 0xFF
    ∧ (insertw cs v).pos = cs.pos + 2
    ∧ (insertw cs v).buffer cs.pos * 256 + (insertw cs v).buffer (cs.pos + 1) = v := by
  have hu : u16 v = v := Nat.mod_eq_of_lt hv
  have h0 : (insertw cs v).buffer cs.pos = v >>> 8 := by
    rw [insertw_buffer, hu, if_pos rfl, and_255, Nat.shiftRight_eq_div_pow]
    have : v < 65536 := hv
    omega
  have h1 : (insertw cs v).buffer (cs.pos + 1) = v &&& 0xFF := by
    rw [insertw_buffer, hu, if_neg (by omega), if_pos rfl]
  refine ⟨h0, h1, insertw_pos cs v, ?_⟩
  rw [h0, h1, and_255, Nat.shiftRight_eq_div_pow]
  omega

/-- Witness for C6 on a fresh 8-byte stream and the word `0xBEEF`. -/
theorem insertw_big_endian_witness :
    (freshStream 8).pos + 2 ≤ (freshStream 8).size ∧ 0xBEEF < 2 ^ 16
    ∧ (insertw (freshStream 8) 0xBEEF).buffer (freshStream 8).pos * 256
        + (insertw (freshStream 8) 0xBEEF).buffer ((freshStream 8).pos + 1) = 0xBEEF :=
  ⟨by decide, by decide,
    (insertw_big_endian (freshStream 8) 0xBEEF (by decide) (by decide)).2.2.2⟩

/-- C7: for a command buffer with `pos + 4 <= size` and a 32-bit value `v`, `insertd` stores
the four bytes of `v`, most significant first, at `pos .. pos+3` and advances `pos` by
exactly 4; recombining the four bytes big-endian gives back `v` exactly. -/
theorem insertd_big_endian (cs : dl_cmdstream) (v : Nat)
    (_hfit : cs.pos + 4 ≤ cs.size) (hv : v < 2 ^ 32) :
    (insertd cs v).buffer cs.pos = (v >>> 24) &&& 0xFF
    ∧ (insertd cs v).buffer (cs.pos + 1) = (v >>> 16) &&& 0xFF
    ∧ (insertd cs v).buffer (cs.pos + 2) = (v >>> 8) &&& 0xFF
    ∧ (insertd cs v).buffer (cs.pos + 3) = v &&& 0xFF
    ∧ (insertd cs v).pos = cs.pos + 4
    ∧ (insertd cs v).buffer cs.pos * 2 ^ 24 + (insertd cs v).buffer (cs.pos + 1) * 2 ^ 16
        + (insertd cs v).buffer (cs.pos + 2) * 2 ^ 8 + (insertd cs v).buffer (cs.pos + 3) = v := by
  have hu : u32 v = v := Nat.mod_eq_of_lt hv
  have h0 : (insertd cs v).buffer cs.pos = (v >>> 24) &&& 0xFF := by
    rw [insertd_buffer, hu, if_pos rfl]
  have h1 : (insertd cs v).buffer (cs.pos + 1) = (v >>> 16) &&& 0xFF := by
    rw [insertd_buffer, hu, if_neg (by omega), if_pos rfl]
  have h2 : (insertd cs v).buffer (cs.pos + 2) = (v >>> 8) &&& 0xFF := by
    rw [insertd_buffer, hu, if_neg (by omega), if_neg (by omega), if_pos rfl]
  have h3 : (insertd cs v).buffer (cs.pos + 3) = v &&& 0xFF := by
    rw [insertd_buffer, hu, if_neg (by omega), if_neg (by omega), if_neg (by omega), if_pos rfl]
  refine ⟨h0, h1, h2, h3, insertd_pos cs v, ?_⟩
  rw [h0, h1, h2, h3]
  simp only [and_255, Nat.shiftRight_eq_div_pow]
  have : v < 4294967296 := hv
  omega

/-- Witness for C7 on a fresh 8-byte stream and the doubleword `0x263871CD`. -/
theorem insertd_big_endian_witness :
    (freshStream 8).pos + 4 ≤ (freshStream 8).size ∧ 0x263871CD < 2 ^ 32
    ∧ bytesAt (insertd (freshStream 8) 0x263871CD) 0 4 = [0x26, 0x38, 0x71, 0xCD]
    ∧ (insertd (freshStream 8) 0x263871CD).pos = (freshStream 8).pos + 4 :=
  ⟨by decide, by decide, by decide,
    (insertd_big_endian (freshStream 8) 0x263871CD (by decide) (by decide)).2.2.2.2.1⟩

/-! ## Capacity, invariant and bit alignment -/

/-- C3 (counterexample): the full stream satisfies the invariant, the stream after one
more `insertb` does not (`pos = 3 > size = 2`). -/
theorem insertb_breaks_invariant :
    cmdstream_inv fullStream ∧ ¬ cmdstream_inv (insertb fullStream 7) := by
  constructor
  · decide
  · decide

/-- C3 (amended): the predicate `0 <= bitpos <= 7 and 0 <= pos <= size` is preserved by
each of `insertb`, `insertw`, `inserta`, `insertd` and `insert` whenever the appended
bytes fit, that is `pos + n <= size` for the `n >= 0` bytes of the append. -/
theorem append_preserves_invariant (cs : dl_cmdstream) (hinv : cmdstream_inv cs) :
    (∀ v, cs.pos + 1 ≤ cs.size → cmdstream_inv (insertb cs v))
    ∧ (∀ v, cs.pos + 2 ≤ cs.size → cmdstream_inv (insertw cs v))
    ∧ (∀ a, cs.pos + 3 ≤ cs.size → cmdstream_inv (inserta cs a))
    ∧ (∀ v, cs.pos + 4 ≤ cs.size → cmdstream_inv (insertd cs v))
    ∧ (∀ (n : Nat) (buf : Nat → Nat), cs.pos + (n : Int) ≤ cs.size →
        cmdstream_inv (insert cs n buf)) := by
  obtain ⟨hb0, hb7, hp0, _⟩ := hinv
  refine ⟨?_, ?_, ?_, ?_, ?_⟩
  · intro v h
    exact ⟨hb0, hb7, by rw [insertb_pos]; omega, by rw [insertb_pos, insertb_size]; omega⟩
  · intro v h
    exact ⟨hb0, hb7, by rw [insertw_pos]; omega,
      by rw [insertw_pos, (insertw_frame cs v).2]; omega⟩
  · intro a h
    exact ⟨hb0, hb7, by rw [inserta_pos]; omega,
      by rw [inserta_pos, (inserta_frame cs a).2]; omega⟩
  · intro v h
    exact ⟨hb0, hb7, by rw [insertd_pos]; omega,
      by rw [insertd_pos, (insertd_frame cs v).2]; omega⟩
  · intro n buf h
    exact ⟨hb0, hb7, by rw [insert_pos]; omega,
      by rw [insert_pos, (insert_frame cs n buf).2]; omega⟩

/-- Witness for C3 (amended): a doubleword appended to a fresh 8-byte stream. -/
theorem append_preserves_invariant_witness :
    cmdstream_inv (freshStream 8) ∧ (freshStream 8).pos + 4 ≤ (freshStream 8).size
    ∧ cmdstream_inv (insertd (freshStream 8) 0x263871CD) :=
  ⟨by decide, by decide,
    (append_preserves_invariant (freshStream 8) (by decide)).2.2.2.1 0x263871CD (by decide)⟩

/-- C4 (counterexample): in the middle of a bit sequence (`bitpos = 3`, the byte at
position 0 holds the bits `0x05`), `insertb` stores `0xAB` into that very byte, the next
byte stays untouched, the bit offset stays 3 and the append is not rejected (`pos`
becomes 1). -/
theorem insertb_overwrites_open_byte :
    midBitStream.bitpos ≠ 0
    ∧ midBitStream.buffer midBitStream.pos = 0x05
    ∧ (insertb midBitStream 0xAB).buffer midBitStream.pos = 0xAB
    ∧ (insertb midBitStream 0xAB).buffer (midBitStream.pos + 1) = 0
    ∧ (insertb midBitStream 0xAB).bitpos = 3
    ∧ (insertb midBitStream 0xAB).pos = 1 := by
  refine ⟨by decide, by decide, by decide, by decide, by decide, by decide⟩

/-- C4 (amended): the byte-level appends do not look at the bit offset.  For every command
buffer whose bit offset is not 0 and every byte-level append that fits, the first byte of
the append is stored at the current position `pos`, replacing the partially filled byte
there, and the bit offset is left as it was: the append is neither rejected nor preceded
by padding, so aligning the buffer beforehand is left to the caller. -/
theorem append_ignores_bitpos (cs : dl_cmdstream) (hmid : cs.bitpos ≠ 0) :
    (∀ v, cs.pos + 1 ≤ cs.size →
        (insertb cs v).buffer cs.pos = u8 v ∧ (insertb cs v).bitpos = cs.bitpos
        ∧ (insertb cs v).bitpos ≠ 0)
    ∧ (∀ v, cs.pos + 2 ≤ cs.size →
        (insertw cs v).buffer cs.pos = (u16 v >>> 8) &&& 0xFF
        ∧ (insertw cs v).bitpos = cs.bitpos ∧ (insertw cs v).bitpos ≠ 0)
    ∧ (∀ a, cs.pos + 3 ≤ cs.size →
        (inserta cs a).buffer cs.pos = (u32 a >>> 16) &&& 0xFF
        ∧ (inserta cs a).bitpos = cs.bitpos ∧ (inserta cs a).bitpos ≠ 0)
    ∧ (∀ v, cs.pos + 4 ≤ cs.size →
        (insertd cs v).buffer cs.pos = (u32 v >>> 24) &&& 0xFF
        ∧ (insertd cs v).bitpos = cs.bitpos ∧ (insertd cs v).bitpos ≠ 0)
    ∧ (∀ (n : Nat) (buf : Nat → Nat), 1 ≤ n → cs.pos + (n : Int) ≤ cs.size →
        (insert cs n buf).buffer cs.pos = u8 (buf 0)
        ∧ (insert cs n buf).bitpos = cs.bitpos ∧ (insert cs n buf).bitpos ≠ 0) := by
  refine ⟨?_, ?_, ?_, ?_, ?_⟩
  · intro v _
    exact ⟨by rw [insertb_buffer, if_pos rfl], rfl, hmid⟩
  · intro v _
    exact ⟨by rw [insertw_buffer, if_pos rfl], rfl, hmid⟩
  · intro a _
    exact ⟨by rw [inserta_buffer, if_pos rfl], rfl, hmid⟩
  · intro v _
    exact ⟨by rw [insertd_buffer, if_pos rfl], rfl, hmid⟩
  · intro n buf hn _
    refine ⟨?_, rfl, hmid⟩
    rw [insert_buffer, if_pos (by omega)]
    simp

/-- Witness for C4 (amended): a word appended in the middle of a bit sequence. -/
theorem append_ignores_bitpos_witness :
    midBitStream.bitpos ≠ 0 ∧ midBitStream.pos + 2 ≤ midBitStream.size
    ∧ (insertw midBitStream 0xBEEF).buffer midBitStream.pos = (u16 0xBEEF >>> 8) &&& 0xFF
    ∧ (insertw midBitStream 0xBEEF).bitpos = midBitStream.bitpos
    ∧ (insertw midBitStream 0xBEEF).bitpos ≠ 0 :=
  ⟨by decide, by decide,
    (append_ignores_bitpos midBitStream (by decide)).2.1 0xBEEF (by decide)⟩

/-! ## `insert` against repeated `insertb` -/

/-- C5: for a command buffer with `pos + n <= size` and a byte sequence `buf` of length
`n >= 0`, `insert(cs, n, buf)` yields exactly the buffer state of the `n` successive calls
`insertb(cs, buf[0])`, ..., `insertb(cs, buf[n-1])`: the bytes are at `pos .. pos+n-1` in
their original order and `pos` has advanced by `n`. -/
theorem insert_eq_insertb_seq (cs : dl_cmdstream) (n : Nat) (buf : Nat → Nat)
    (_hfit : cs.pos + (n : Int) ≤ cs.size) :
    insert cs n buf = (List.range n).foldl (fun s k => insertb s (buf k)) cs
    ∧ (∀ k : Nat, k < n → (insert cs n buf).buffer (cs.pos + (k : Int)) = u8 (buf k))
    ∧ (insert cs n buf).pos = cs.pos + (n : Int) := by
  have hfold : (List.range n).foldl (fun s k => insertb s (buf k)) cs
      = ((List.range n).map buf).foldl insertb cs := by
    rw [List.foldl_map]
  refine ⟨?_, ?_, rfl⟩
  · rw [hfold]
    apply dl_cmdstream_ext
    · intro i
      rw [insert_buffer, foldl_insertb_buffer, List.length_map, List.length_range]
      by_cases h : cs.pos ≤ i ∧ i < cs.pos + (n : Int)
      · rw [if_pos h, if_pos h]
        have hk : (i - cs.pos).toNat < n := by omega
        rw [List.getD_eq_getElem _ _ (by simpa using hk)]
        simp
      · rw [if_neg h, if_neg h]
    · rw [insert_pos, foldl_insertb_pos, List.length_map, List.length_range]
    · rw [(insert_frame cs n buf).1, (foldl_insertb_frame _ cs).1]
    · rw [(insert_frame cs n buf).2, (foldl_insertb_frame _ cs).2]
  · intro k hk
    rw [insert_buffer, if_pos (by omega)]
    have : (cs.pos + (k : Int) - cs.pos).toNat = k := by simp
    rw [this]

/-- Witness for C5: three bytes copied into a fresh 8-byte stream. -/
theorem insert_eq_insertb_seq_witness :
    (freshStream 8).pos + ((3 : Nat) : Int) ≤ (freshStream 8).size
    ∧ insert (freshStream 8) (3 : Nat) (fun k => 0x10 + k)
        = insertb (insertb (insertb (freshStream 8) 0x10) 0x11) 0x12
    ∧ bytesAt (insert (freshStream 8) (3 : Nat) (fun k => 0x10 + k)) 0 3 = [0x10, 0x11, 0x12] :=
  ⟨by decide,
    (insert_eq_insertb_seq (freshStream 8) 3 (fun k => 0x10 + k) (by decide)).1,
    by decide⟩

/-! ## Huffman table size -/

/-- C8: the userspace Huffman table has exactly `DL_HUFFMAN_SIZE = 2*DL_HUFFMAN_COUNT + 1 =
65537` entries and is total over the delta domain: for 16-bit pixel values `p` and `q`,
the difference `p - q` reduced to a signed 16-bit value `d` satisfies
`0 <= d + 32768 < DL_HUFFMAN_SIZE`, and distinct deltas have distinct indices. -/
theorem huffman_table_total :
    DL_HUFFMAN_SIZE = 2 * DL_HUFFMAN_COUNT + 1
    ∧ DL_HUFFMAN_SIZE = 65537
    ∧ (∀ p q : Nat, p < 2 ^ 16 → q < 2 ^ 16 →
        -32768 ≤ toInt16 ((p : Int) - (q : Int)) ∧ toInt16 ((p : Int) - (q : Int)) ≤ 32767
        ∧ huffman_index (toInt16 ((p : Int) - (q : Int)))
            = toInt16 ((p : Int) - (q : Int)) + 32768
        ∧ 0 ≤ huffman_index (toInt16 ((p : Int) - (q : Int)))
        ∧ huffman_index (toInt16 ((p : Int) - (q : Int))) < (DL_HUFFMAN_SIZE : Int))
    ∧ (∀ d e : Int, d ≠ e → huffman_index d ≠ huffman_index e) := by
  have hcount : DL_HUFFMAN_COUNT = 32768 := by decide
  have hsize : DL_HUFFMAN_SIZE = 65537 := by decide
  refine ⟨rfl, hsize, ?_, ?_⟩
  · intro p q _ _
    simp only [huffman_index, toInt16, hcount, hsize]
    push_cast
    omega
  · intro d e hne h
    simp only [huffman_index] at h
    omega

/-- Witness for C8: the pixel pair `p = 0x7FFF`, `q = 0xFFFF`; the difference `-32768` is
the smallest delta and has index 0. -/
theorem huffman_table_total_witness :
    0x7FFF < 2 ^ 16 ∧ 0xFFFF < 2 ^ 16
    ∧ toInt16 (((0x7FFF : Nat) : Int) - ((0xFFFF : Nat) : Int)) = -32768
    ∧ 0 ≤ huffman_index (toInt16 (((0x7FFF : Nat) : Int) - ((0xFFFF : Nat) : Int)))
    ∧ huffman_index (toInt16 (((0x7FFF : Nat) : Int) - ((0xFFFF : Nat) : Int)))
        < (DL_HUFFMAN_SIZE : Int) :=
  ⟨by decide, by decide, by decide,
    (huffman_table_total.2.2.1 0x7FFF 0xFFFF (by decide) (by decide)).2.2.2⟩

/-! ## Graphics opcodes -/

/-- C9: the graphics flag bits combine without ambiguity: for each command `c` among
`DL_GFX_WRITE`, `DL_GFX_RLE`, `DL_GFX_COPY` and each subset `F` of
`{DL_GFX_WORD, DL_GFX_COMP}` the opcode `c | F` determines `c` and `F` (the 12 bytes are
pairwise distinct, `c = op & ~(0x08|0x10)`, each flag is set in `op` iff it is in `F`),
none of them is `DL_CMD_START`, `DL_CMD_SET_REG`, `DL_CMD_UNKNOWN`, `DL_CMD_SYNC` or
`DL_CMD_HUFFMAN`, and `DL_GFX_BASE | DL_GFX_WORD | DL_GFX_COMP = 0x78`. -/
theorem gfx_opcodes_unambiguous :
    (gfxCommands.flatMap (fun c => gfxFlagSets.map (gfxOpcode c))).length = 12
    ∧ (gfxCommands.flatMap (fun c => gfxFlagSets.map (gfxOpcode c))).Nodup
    ∧ (∀ c ∈ gfxCommands, ∀ F ∈ gfxFlagSets,
        gfxCommandOf (gfxOpcode c F) = c
        ∧ (gfxOpcode c F &&& DL_GFX_WORD = DL_GFX_WORD ↔ F.1 = true)
        ∧ (gfxOpcode c F &&& DL_GFX_WORD = 0 ↔ F.1 = false)
        ∧ (gfxOpcode c F &&& DL_GFX_COMP = DL_GFX_COMP ↔ F.2 = true)
        ∧ (gfxOpcode c F &&& DL_GFX_COMP = 0 ↔ F.2 = false)
        ∧ gfxOpcode c F < 256
        ∧ gfxOpcode c F ∉ otherCommands)
    ∧ DL_GFX_BASE ||| DL_GFX_WORD ||| DL_GFX_COMP = 0x78
    ∧ gfxOpcode DL_GFX_WRITE (true, true) = 0x78 := by
  refine ⟨by decide, by decide, by decide, by decide, by decide⟩

/-- Witness for C9: the compressed word write `0x78` decodes to `DL_GFX_WRITE` with both
flags set. -/
theorem gfx_opcodes_unambiguous_witness :
    DL_GFX_WRITE ∈ gfxCommands ∧ (true, true) ∈ gfxFlagSets
    ∧ gfxCommandOf (gfxOpcode DL_GFX_WRITE (true, true)) = DL_GFX_WRITE
    ∧ gfxOpcode DL_GFX_WRITE (true, true) ∉ otherCommands :=
  ⟨by decide, by decide,
    (gfx_opcodes_unambiguous.2.2.1 DL_GFX_WRITE (by decide) (true, true) (by decide)).1,
    (gfx_opcodes_unambiguous.2.2.1 DL_GFX_WRITE (by decide) (true, true) (by decide)).2.2.2.2.2.2⟩

/-! ## Register updates -/

theorem dl_reg_set_eq_foldl (cs : dl_cmdstream) (reg val : Nat) :
    dl_reg_set cs reg val = [DL_CMD_SET_REG, reg, val].foldl insertb cs := rfl

theorem dl_reg_set_all_eq_foldl (cs : dl_cmdstream) (values : List Nat) :
    dl_reg_set_all cs values = (regSetAllStream values).foldl insertb cs := rfl

theorem regSetAllStream_length (values : List Nat) : (regSetAllStream values).length = 93 := rfl

theorem regSetAllStream_bytes (values : List Nat) (hbytes : ∀ v ∈ values, v < 256) :
    ∀ x ∈ regSetAllStream values, x < 256 := by
  intro x hx
  simp only [regSetAllStream, List.mem_append, List.mem_flatMap, List.mem_range,
    List.mem_cons, List.mem_singleton, List.not_mem_nil, or_false] at hx
  have hget : ∀ i : Nat, values.getD i 0 < 256 := by
    intro i
    by_cases hi : i < values.length
    · rw [List.getD_eq_getElem _ _ hi]
      exact hbytes _ (List.getElem_mem hi)
    · rw [List.getD_eq_default _ _ (by omega)]
      decide
  rcases hx with (((h | h | h) | ⟨i, hi, (h | h | h)⟩) | (h | h | h))
  all_goals first
    | (subst h; exact hget _)
    | omega

/-- C10: `dl_reg_set_all` applied to an empty, large enough command buffer and the table
`DL_REG_MODE_640x480_60` emits exactly 93 bytes forming 31 three-byte SET_REG triples:
the hold triple `[0x20, 0xFF, 0x00]`, then for `i = 0..28` in increasing order the triple
`[0x20, i, values[i]]`, and last the resume triple `[0x20, 0xFF, 0xFF]`; the same shape
holds for every 29-entry value table. -/
theorem dl_reg_set_all_stream (cs : dl_cmdstream) (values : List Nat)
    (hpos : cs.pos = 0) (_hsize : 93 ≤ cs.size)
    (_hlen : values.length = 29) (hbytes : ∀ v ∈ values, v < 256) :
    bytesAt (dl_reg_set_all cs values) 0 93 = regSetAllStream values
    ∧ (dl_reg_set_all cs values).pos = 93
    ∧ (∀ i : Int, i < 0 ∨ 93 ≤ i → (dl_reg_set_all cs values).buffer i = cs.buffer i)
    ∧ bytesAt (dl_reg_set_all cs DL_REG_MODE_640x480_60) 0 93 =
        [0x20, 0xFF, 0x00,
         0x20, 0x00, 0x00, 0x20, 0x01, 0x99, 0x20, 0x02, 0x30, 0x20, 0x03, 0x26,
         0x20, 0x04, 0x94, 0x20, 0x05, 0x60, 0x20, 0x06, 0xa9, 0x20, 0x07, 0xce,
         0x20, 0x08, 0x60, 0x20, 0x09, 0x07, 0x20, 0x0a, 0xb3, 0x20, 0x0b, 0x0f,
         0x20, 0x0c, 0x79, 0x20, 0x0d, 0xff, 0x20, 0x0e, 0xff, 0x20, 0x0f, 0x02,
         0x20, 0x10, 0x80, 0x20, 0x11, 0x83, 0x20, 0x12, 0xbc, 0x20, 0x13, 0xff,
         0x20, 0x14, 0xfc, 0x20, 0x15, 0xff, 0x20, 0x16, 0xff, 0x20, 0x17, 0x01,
         0x20, 0x18, 0xe0, 0x20, 0x19, 0x01, 0x20, 0x1a, 0x02, 0x20, 0x1b, 0xab,
         0x20, 0x1c, 0x13,
         0x20, 0xFF, 0xFF] := by
  have hread : ∀ vals : List Nat, (∀ v ∈ vals, v < 256) →
      bytesAt (dl_reg_set_all cs vals) 0 93 = regSetAllStream vals := by
    intro vals hv
    have h := bytesAt_foldl_insertb (regSetAllStream vals) cs
    rw [regSetAllStream_length, hpos, ← dl_reg_set_all_eq_foldl] at h
    rw [h]
    calc (regSetAllStream vals).map u8
        = (regSetAllStream vals).map id :=
          List.map_congr_left (fun x hx => u8_of_lt (regSetAllStream_bytes vals hv x hx))
      _ = regSetAllStream vals := List.map_id _
  refine ⟨hread values hbytes, ?_, ?_, ?_⟩
  · rw [dl_reg_set_all_eq_foldl, foldl_insertb_pos, regSetAllStream_length, hpos]
    rfl
  · intro i hi
    rw [dl_reg_set_all_eq_foldl, foldl_insertb_buffer, regSetAllStream_length, hpos,
      if_neg (by omega)]
  · rw [hread DL_REG_MODE_640x480_60 (by decide)]
    rfl

/-- Witness for C10: the 640x480 table on a fresh 93-byte stream. -/
theorem dl_reg_set_all_stream_witness :
    (freshStream 93).pos = 0 ∧ 93 ≤ (freshStream 93).size
    ∧ DL_REG_MODE_640x480_60.length = 29 ∧ (∀ v ∈ DL_REG_MODE_640x480_60, v < 256)
    ∧ bytesAt (dl_reg_set_all (freshStream 93) DL_REG_MODE_640x480_60) 0 93
        = regSetAllStream DL_REG_MODE_640x480_60
    ∧ (dl_reg_set_all (freshStream 93) DL_REG_MODE_640x480_60).pos = 93 :=
  ⟨rfl, by decide, rfl, by decide,
    (dl_reg_set_all_stream (freshStream 93) DL_REG_MODE_640x480_60 rfl (by decide) rfl
      (by decide)).1,
    (dl_reg_set_all_stream (freshStream 93) DL_REG_MODE_640x480_60 rfl (by decide) rfl
      (by decide)).2.1⟩

/-! ## Frame of the appends -/

/-- C15: frame of a byte append.  For a command buffer with `pos < size` and a byte `v`,
`insertb` changes only `buffer[pos]` (to `v`) and `pos` (to `pos+1`): every byte at another
index, `bitpos` and `size` are unchanged; consequently `insertw`, `inserta`, `insertd` and
`insert` (with a size `n >= 0`) never modify a byte before the old `pos`. -/
theorem insertb_frame (cs : dl_cmdstream) (v : Nat) (_hfit : cs.pos < cs.size) (hv : v < 256) :
    (insertb cs v).buffer cs.pos = v
    ∧ (insertb cs v).pos = cs.pos + 1
    ∧ (∀ i : Int, i ≠ cs.pos → (insertb cs v).buffer i = cs.buffer i)
    ∧ (insertb cs v).bitpos = cs.bitpos
    ∧ (insertb cs v).size = cs.size
    ∧ (∀ (w : Nat) (i : Int), i < cs.pos → (insertw cs w).buffer i = cs.buffer i)
    ∧ (∀ (a : Nat) (i : Int), i < cs.pos → (inserta cs a).buffer i = cs.buffer i)
    ∧ (∀ (d : Nat) (i : Int), i < cs.pos → (insertd cs d).buffer i = cs.buffer i)
    ∧ (∀ (n : Nat) (buf : Nat → Nat) (i : Int), i < cs.pos →
        (insert cs n buf).buffer i = cs.buffer i) := by
  refine ⟨?_, rfl, ?_, rfl, rfl, ?_, ?_, ?_, ?_⟩
  · rw [insertb_buffer, if_pos rfl, u8_of_lt hv]
  · intro i hi
    rw [insertb_buffer, if_neg hi]
  · intro w i hi
    exact (appendsBytes_insertw cs w).2.2.2.2 i (Or.inl hi)
  · intro a i hi
    exact (appendsBytes_inserta cs a).2.2.2.2 i (Or.inl hi)
  · intro d i hi
    exact (appendsBytes_insertd cs d).2.2.2.2 i (Or.inl hi)
  · intro n buf i hi
    rw [insert_buffer, if_neg (by omega)]

/-- Witness for C15: a byte appended after two bytes already written (`0x11`, `0x22`). -/
theorem insertb_frame_witness :
    (insertw (freshStream 8) 0x1122).pos < (insertw (freshStream 8) 0x1122).size
    ∧ 0x33 < 256
    ∧ bytesAt (insertb (insertw (freshStream 8) 0x1122) 0x33) 0 3 = [0x11, 0x22, 0x33]
    ∧ (insertb (insertw (freshStream 8) 0x1122) 0x33).buffer
        (insertw (freshStream 8) 0x1122).pos = 0x33 :=
  ⟨by decide, by decide, by decide,
    (insertb_frame (insertw (freshStream 8) 0x1122) 0x33 (by decide) (by decide)).1⟩

/-! ## Address truncation -/

/-- The three bytes written by `inserta`, read back big-endian. -/
theorem inserta_readback (cs : dl_cmdstream) (a : Nat) (ha : a < 2 ^ 32) :
    (inserta cs a).buffer cs.pos * 2 ^ 16 + (inserta cs a).buffer (cs.pos + 1) * 2 ^ 8
      + (inserta cs a).buffer (cs.pos + 2) = a % 2 ^ 24 := by
  have hu : u32 a = a := Nat.mod_eq_of_lt ha
  rw [inserta_buffer, inserta_buffer, inserta_buffer, hu, if_pos rfl, if_neg (by omega),
    if_pos rfl, if_neg (by omega), if_neg (by omega), if_pos rfl]
  simp only [and_255, Nat.shiftRight_eq_div_pow]
  omega

/-- C16: `inserta` silently truncates its address to 24 bits: for 32-bit addresses `a` and
`b`, `inserta(cs, a)` and `inserta(cs, b)` give the same buffer state iff `a` and `b`
agree modulo `2^24`; the three written bytes read back big-endian give `a mod 2^24`, so
the round trip is exact precisely for `a < 2^24`. -/
theorem inserta_truncates (cs : dl_cmdstream) (a b : Nat) (ha : a < 2 ^ 32) (hb : b < 2 ^ 32) :
    (inserta cs a = inserta cs b ↔ a % 2 ^ 24 = b % 2 ^ 24)
    ∧ (inserta cs a).buffer cs.pos * 2 ^ 16 + (inserta cs a).buffer (cs.pos + 1) * 2 ^ 8
        + (inserta cs a).buffer (cs.pos + 2) = a % 2 ^ 24
    ∧ ((inserta cs a).buffer cs.pos * 2 ^ 16 + (inserta cs a).buffer (cs.pos + 1) * 2 ^ 8
        + (inserta cs a).buffer (cs.pos + 2) = a ↔ a < 2 ^ 24) := by
  have hra := inserta_readback cs a ha
  have hrb := inserta_readback cs b hb
  refine ⟨⟨?_, ?_⟩, hra, ?_⟩
  · intro h
    rw [← hra, ← hrb, h]
  · intro h
    have hua : u32 a = a := Nat.mod_eq_of_lt ha
    have hub : u32 b = b := Nat.mod_eq_of_lt hb
    have h16 : (a >>> 16) &&& 0xFF = (b >>> 16) &&& 0xFF := by
      simp only [and_255, Nat.shiftRight_eq_div_pow]; omega
    have h8 : (a >>> 8) &&& 0xFF = (b >>> 8) &&& 0xFF := by
      simp only [and_255, Nat.shiftRight_eq_div_pow]; omega
    have h0 : a &&& 0xFF = b &&& 0xFF := by
      simp only [and_255]; omega
    apply dl_cmdstream_ext
    · intro i
      rw [inserta_buffer, inserta_buffer, hua, hub, h16, h8, h0]
    · rw [inserta_pos, inserta_pos]
    · rw [(inserta_frame cs a).1, (inserta_frame cs b).1]
    · rw [(inserta_frame cs a).2, (inserta_frame cs b).2]
  · rw [hra]
    constructor
    · intro h
      have : a % 2 ^ 24 < 2 ^ 24 := Nat.mod_lt _ (by norm_num)
      omega
    · intro h
      exact Nat.mod_eq_of_lt h

/-- Witness for C16: `0x01123456` and `0xFF123456` differ only above bit 23 and are stored
as the same three bytes. -/
theorem inserta_truncates_witness :
    0x01123456 < 2 ^ 32 ∧ 0xFF123456 < 2 ^ 32
    ∧ inserta (freshStream 8) 0x01123456 = inserta (freshStream 8) 0xFF123456
    ∧ bytesAt (inserta (freshStream 8) 0x01123456) 0 3 = [0x12, 0x34, 0x56] :=
  ⟨by decide, by decide,
    (inserta_truncates (freshStream 8) 0x01123456 0xFF123456 (by decide) (by decide)).1.2
      (by decide),
    by decide⟩

/-! ## Resolution of the mode tables -/

/-- C17: every predefined mode register table encodes the resolution in its name: for each
of the ten tables `DL_REG_MODE_<W>x<H>_60`, `values[DL_REG_XRES_MSB]*256 +
values[DL_REG_XRES_LSB] = W` and `values[DL_REG_YRES_MSB]*256 + values[DL_REG_YRES_LSB] = H`;
each table has `0x1D` byte entries. -/
theorem mode_tables_resolution :
    modeTables.length = 10
    ∧ modeTables.all (fun t => decide (modeXres t.1 = t.2.1 ∧ modeYres t.1 = t.2.2)) = true
    ∧ modeTables.all (fun t => decide (t.1.length = 0x1D) && t.1.all (fun v => decide (v < 256)))
        = true
    ∧ modeXres DL_REG_MODE_640x480_60 = 640 ∧ modeYres DL_REG_MODE_640x480_60 = 480
    ∧ modeXres DL_REG_MODE_800x480_60 = 800 ∧ modeYres DL_REG_MODE_800x480_60 = 480
    ∧ modeXres DL_REG_MODE_800x600_60 = 800 ∧ modeYres DL_REG_MODE_800x600_60 = 600
    ∧ modeXres DL_REG_MODE_1024x768_60 = 1024 ∧ modeYres DL_REG_MODE_1024x768_60 = 768
    ∧ modeXres DL_REG_MODE_1280x1024_60 = 1280 ∧ modeYres DL_REG_MODE_1280x1024_60 = 1024
    ∧ modeXres DL_REG_MODE_1360x768_60 = 1360 ∧ modeYres DL_REG_MODE_1360x768_60 = 768
    ∧ modeXres DL_REG_MODE_1366x768_60 = 1366 ∧ modeYres DL_REG_MODE_1366x768_60 = 768
    ∧ modeXres DL_REG_MODE_1400x1050_60 = 1400 ∧ modeYres DL_REG_MODE_1400x1050_60 = 1050
    ∧ modeXres DL_REG_MODE_1600x1200_60 = 1600 ∧ modeYres DL_REG_MODE_1600x1200_60 = 1200
    ∧ modeXres DL_REG_MODE_1920x1080_60 = 1920 ∧ modeYres DL_REG_MODE_1920x1080_60 = 1080 := by
  refine ⟨rfl, by decide, by decide, ?_⟩
  decide

/-! ## The CRC generator -/

theorem gf2_rem_step_lt (g deg : Nat) (hg : g < 2 ^ (deg + 1)) (htop : g.testBit deg = true)
    (r : Nat) (b : Bool) (hr : r < 2 ^ deg) : gf2_rem_step g deg r b < 2 ^ deg := by
  have hr1 : 2 * r + b.toNat < 2 ^ (deg + 1) := by
    have hb : b.toNat ≤ 1 := by cases b <;> simp
    rw [pow_succ]
    omega
  have hhigh : ∀ x : Nat, x < 2 ^ (deg + 1) → ∀ i, deg < i → x.testBit i = false := by
    intro x hx i hi
    apply Nat.testBit_lt_two_pow
    exact lt_of_lt_of_le hx (Nat.pow_le_pow_right (by norm_num) hi)
  simp only [gf2_rem_step]
  split_ifs with h
  · apply Nat.lt_pow_two_of_testBit
    intro i hi
    rw [Nat.testBit_xor]
    rcases Nat.eq_or_lt_of_le hi with heq | hlt
    · subst heq
      rw [h, htop]
      rfl
    · rw [hhigh _ hr1 i hlt, hhigh _ hg i hlt]
      rfl
  · apply Nat.lt_pow_two_of_testBit
    intro i hi
    rcases Nat.eq_or_lt_of_le hi with heq | hlt
    · subst heq
      simpa using h
    · exact hhigh _ hr1 i hlt

theorem gf2_rem_lt (g deg : Nat) (hg : g < 2 ^ (deg + 1)) (htop : g.testBit deg = true)
    (bits : List Bool) : gf2_rem g deg bits < 2 ^ deg := by
  have hgen : ∀ (l : List Bool) (r : Nat), r < 2 ^ deg →
      l.foldl (gf2_rem_step g deg) r < 2 ^ deg := by
    intro l
    induction l with
    | nil => intro r hr; exact hr
    | cons b bs ih =>
      intro r hr
      rw [List.foldl_cons]
      exact ih _ (gf2_rem_step_lt g deg hg htop r b hr)
  exact hgen bits 0 (by positivity)

/-- C14: the CRC generator constant `DL_CRYPT_CRC12 = 0x180F` is exactly the coefficient bit
mask of `x^12 + x^11 + x^3 + x^2 + x + 1` (bit `i` is set iff `x^i` occurs), that is
`2^12 + 2^11 + 2^3 + 2^2 + 2 + 1`; the polynomial has degree exactly 12 and every remainder
modulo it fits in 12 bits. -/
theorem crc12_generator :
    DL_CRYPT_CRC12 = 0x180F
    ∧ DL_CRYPT_CRC12 = 2 ^ 12 + 2 ^ 11 + 2 ^ 3 + 2 ^ 2 + 2 + 1
    ∧ DL_CRYPT_CRC12 = (crc12Exponents.map (fun i => 2 ^ i)).sum
    ∧ (∀ i : Nat, DL_CRYPT_CRC12.testBit i = true ↔ i ∈ crc12Exponents)
    ∧ Nat.log2 DL_CRYPT_CRC12 = 12
    ∧ (∀ bits : List Bool, gf2_rem DL_CRYPT_CRC12 12 bits < 2 ^ 12) := by
  have hlt : DL_CRYPT_CRC12 < 2 ^ (12 + 1) := by decide
  have htop : DL_CRYPT_CRC12.testBit 12 = true := by decide
  refine ⟨rfl, by decide, by decide, ?_, ?_, gf2_rem_lt DL_CRYPT_CRC12 12 hlt htop⟩
  · intro i
    by_cases hi : i < 13
    · interval_cases i <;> decide
    · have hfalse : DL_CRYPT_CRC12.testBit i = false := by
        apply Nat.testBit_lt_two_pow
        exact lt_of_lt_of_le hlt (Nat.pow_le_pow_right (by norm_num) (by omega))
      rw [hfalse]
      simp only [crc12Exponents, List.mem_cons, List.mem_singleton, List.not_mem_nil, or_false]
      constructor
      · intro h
        exact absurd h (by decide)
      · intro h
        omega
  · have hne : DL_CRYPT_CRC12 ≠ 0 := by decide
    have h1 : Nat.log2 DL_CRYPT_CRC12 < 13 := (Nat.log2_lt hne).2 hlt
    have h2 : ¬ Nat.log2 DL_CRYPT_CRC12 < 12 := by
      intro h
      have := (Nat.log2_lt hne).1 h
      exact absurd this (by decide)
    omega

/-! ## Huffman compression: progress and block size -/

theorem huffman_fit_le (blocksize : Int) (lens : List Nat) (bits : Nat) :
    huffman_fit blocksize bits lens ≤ lens.length := by
  induction lens generalizing bits with
  | nil => simp [huffman_fit]
  | cons len rest ih =>
    simp only [huffman_fit, List.length_cons]
    split_ifs
    · have := ih (bits + len)
      omega
    · omega

theorem huffman_consumed_le (blocksize : Int) (lens : List Nat) :
    huffman_consumed blocksize lens ≤ lens.length := by
  cases lens with
  | nil => simp [huffman_consumed]
  | cons len rest =>
    simp only [huffman_consumed, List.length_cons]
    have := huffman_fit_le blocksize rest len
    omega

theorem huffman_consumed_pos (blocksize : Int) (lens : List Nat) (h : 1 ≤ lens.length) :
    1 ≤ huffman_consumed blocksize lens := by
  cases lens with
  | nil => simp at h
  | cons len rest =>
    simp only [huffman_consumed]
    omega

theorem huffman_lens_length (table : Nat → dl_huffman_code) (pcount : Int)
    (pixels : Nat → Nat) :
    ((huffman_deltas pcount pixels).map (huffman_code_len table)).length = pcount.toNat := by
  simp [huffman_deltas]

theorem dl_huffman_compress_count (table : Nat → dl_huffman_code) (cs : dl_cmdstream)
    (addr : Nat) (pcount : Int) (pixels : Nat → Nat) (blocksize : Int) :
    (dl_huffman_compress table cs addr pcount pixels blocksize).2
      = huffman_consumed blocksize ((huffman_deltas pcount pixels).map (huffman_code_len table)) :=
  rfl

theorem fixed16Table_total : huffman_total fixed16Table := by
  intro d _ _
  simp [huffman_lookup, fixed16Table]

/-- C11: for every total Huffman table, every address, every non-empty pixel run
(`pcount >= 1`) and every `blocksize >= 1`, `dl_huffman_compress` returns a number of
consumed pixels `n` with `1 <= n <= pcount`, even when the code of the first pixel alone
would overflow the block. -/
theorem dl_huffman_compress_progress (table : Nat → dl_huffman_code)
    (_htotal : huffman_total table) (cs : dl_cmdstream) (addr : Nat) (pcount : Int)
    (pixels : Nat → Nat) (blocksize : Int) (hp : 1 ≤ pcount) (_hb : 1 ≤ blocksize) :
    1 ≤ (dl_huffman_compress table cs addr pcount pixels blocksize).2
    ∧ ((dl_huffman_compress table cs addr pcount pixels blocksize).2 : Int) ≤ pcount := by
  rw [dl_huffman_compress_count]
  have hlen := huffman_lens_length table pcount pixels
  constructor
  · apply huffman_consumed_pos
    rw [hlen]
    omega
  · have := huffman_consumed_le blocksize
      ((huffman_deltas pcount pixels).map (huffman_code_len table))
    rw [hlen] at this
    omega

/-- Witness for C11: two pixels, 16-bit codes and `blocksize = 1`, smaller than the header
alone; one pixel is consumed. -/
theorem dl_huffman_compress_progress_witness :
    huffman_total fixed16Table ∧ (1 : Int) ≤ 2 ∧ (1 : Int) ≤ 1
    ∧ (dl_huffman_compress fixed16Table (freshStream 64) 0 2 (fun _ => 0x1234) 1).2 = 1
    ∧ 1 ≤ (dl_huffman_compress fixed16Table (freshStream 64) 0 2 (fun _ => 0x1234) 1).2 :=
  ⟨fixed16Table_total, by decide, by decide, by decide,
    (dl_huffman_compress_progress fixed16Table fixed16Table_total (freshStream 64) 0 2
      (fun _ => 0x1234) 1 (by decide) (by decide)).1⟩

theorem append_bit_offset (cs : dl_cmdstream) (b : Bool)
    (h0 : 0 ≤ cs.bitpos) (h7 : cs.bitpos ≤ 7) :
    8 * (append_bit cs b).pos + (append_bit cs b).bitpos = 8 * cs.pos + cs.bitpos + 1
    ∧ 0 ≤ (append_bit cs b).bitpos ∧ (append_bit cs b).bitpos ≤ 7 := by
  have hpos : (append_bit cs b).pos = if cs.bitpos + 1 = 8 then cs.pos + 1 else cs.pos := by
    unfold append_bit
    by_cases h : cs.bitpos + 1 = 8 <;> simp [h]
  have hbit : (append_bit cs b).bitpos = if cs.bitpos + 1 = 8 then 0 else cs.bitpos + 1 := by
    unfold append_bit
    by_cases h : cs.bitpos + 1 = 8 <;> simp [h]
  rw [hpos, hbit]
  split_ifs with h
  · refine ⟨?_, ?_, ?_⟩ <;> omega
  · refine ⟨?_, ?_, ?_⟩ <;> omega

theorem foldl_append_bit_offset {α : Type} (f : α → Bool) (l : List α) (cs : dl_cmdstream)
    (h0 : 0 ≤ cs.bitpos) (h7 : cs.bitpos ≤ 7) :
    8 * (l.foldl (fun s i => append_bit s (f i)) cs).pos
        + (l.foldl (fun s i => append_bit s (f i)) cs).bitpos
      = 8 * cs.pos + cs.bitpos + (l.length : Int)
    ∧ 0 ≤ (l.foldl (fun s i => append_bit s (f i)) cs).bitpos
    ∧ (l.foldl (fun s i => append_bit s (f i)) cs).bitpos ≤ 7 := by
  induction l generalizing cs with
  | nil => simp [h0, h7]
  | cons x xs ih =>
    obtain ⟨e1, e2, e3⟩ := append_bit_offset cs (f x) h0 h7
    obtain ⟨i1, i2, i3⟩ := ih (append_bit cs (f x)) e2 e3
    rw [List.foldl_cons, List.length_cons]
    refine ⟨?_, i2, i3⟩
    rw [i1, e1]
    push_cast
    omega

theorem dl_huffman_append_offset (table : Nat → dl_huffman_code) (cs : dl_cmdstream)
    (value : Int) (h0 : 0 ≤ cs.bitpos) (h7 : cs.bitpos ≤ 7) :
    8 * (dl_huffman_append table cs value).pos + (dl_huffman_append table cs value).bitpos
      = 8 * cs.pos + cs.bitpos + (huffman_code_len table value : Int)
    ∧ 0 ≤ (dl_huffman_append table cs value).bitpos
    ∧ (dl_huffman_append table cs value).bitpos ≤ 7 := by
  have h := foldl_append_bit_offset
    (fun i => decide ((huffman_lookup table (toInt16 value)).sequence.getD i '0' = '1'))
    (List.range (huffman_lookup table (toInt16 value)).bitcount.toNat) cs h0 h7
  rw [List.length_range] at h
  exact h

theorem foldl_dl_huffman_append_offset (table : Nat → dl_huffman_code) (ds : List Int)
    (cs : dl_cmdstream) (h0 : 0 ≤ cs.bitpos) (h7 : cs.bitpos ≤ 7) :
    8 * (ds.foldl (dl_huffman_append table) cs).pos
        + (ds.foldl (dl_huffman_append table) cs).bitpos
      = 8 * cs.pos + cs.bitpos + (((ds.map (huffman_code_len table)).sum : Nat) : Int)
    ∧ 0 ≤ (ds.foldl (dl_huffman_append table) cs).bitpos
    ∧ (ds.foldl (dl_huffman_append table) cs).bitpos ≤ 7 := by
  induction ds generalizing cs with
  | nil => simp [h0, h7]
  | cons d rest ih =>
    obtain ⟨e1, e2, e3⟩ := dl_huffman_append_offset table cs d h0 h7
    obtain ⟨i1, i2, i3⟩ := ih (dl_huffman_append table cs d) e2 e3
    rw [List.foldl_cons, List.map_cons, List.sum_cons]
    refine ⟨?_, i2, i3⟩
    rw [i1, e1]
    push_cast
    omega

theorem align_to_byte_pos (cs : dl_cmdstream) (start : Int) (bits : Nat)
    (h0 : 0 ≤ cs.bitpos) (h7 : cs.bitpos ≤ 7)
    (hoff : 8 * cs.pos + cs.bitpos = 8 * start + (bits : Int)) :
    (align_to_byte cs).pos = start + (paddedBytes bits : Int)
    ∧ (align_to_byte cs).bitpos = 0 := by
  simp only [align_to_byte, paddedBytes]
  split_ifs with h
  · refine ⟨?_, h⟩
    push_cast
    omega
  · refine ⟨?_, rfl⟩
    simp only
    push_cast
    omega

theorem huffman_fit_bound (blocksize : Int) (lens : List Nat) (bits : Nat)
    (h : ((huffmanHeaderBytes + paddedBytes bits : Nat) : Int) ≤ blocksize) :
    ((huffmanHeaderBytes
        + paddedBytes (bits + (lens.take (huffman_fit blocksize bits lens)).sum) : Nat) : Int)
      ≤ blocksize := by
  induction lens generalizing bits with
  | nil => simpa [huffman_fit] using h
  | cons len rest ih =>
    simp only [huffman_fit]
    split_ifs with hfit
    · have := ih (bits + len) hfit
      rw [Nat.add_comm 1, List.take_succ_cons, List.sum_cons, ← Nat.add_assoc]
      exact this
    · simpa using h

theorem huffman_consumed_bound (blocksize : Int) (lens : List Nat)
    (h : ((huffmanHeaderBytes + paddedBytes (lens.headD 0) : Nat) : Int) ≤ blocksize) :
    ((huffmanHeaderBytes
        + paddedBytes ((lens.take (huffman_consumed blocksize lens)).sum) : Nat) : Int)
      ≤ blocksize := by
  cases lens with
  | nil => simpa [huffman_consumed] using h
  | cons len rest =>
    simp only [huffman_consumed, List.headD_cons] at h ⊢
    rw [Nat.add_comm 1, List.take_succ_cons, List.sum_cons]
    exact huffman_fit_bound blocksize rest len h

/-- The bytes appended by one `dl_huffman_compress` call on a byte-aligned buffer: the header
and the padded payload of the consumed codes. -/
theorem dl_huffman_compress_emitted (table : Nat → dl_huffman_code) (cs : dl_cmdstream)
    (addr : Nat) (pcount : Int) (pixels : Nat → Nat) (blocksize : Int)
    (halign : cs.bitpos = 0) :
    (dl_huffman_compress table cs addr pcount pixels blocksize).1.pos - cs.pos
      = ((huffmanHeaderBytes + paddedBytes
          ((((huffman_deltas pcount pixels).map (huffman_code_len table)).take
            (dl_huffman_compress table cs addr pcount pixels blocksize).2).sum) : Nat) : Int)
    ∧ (dl_huffman_compress table cs addr pcount pixels blocksize).1.bitpos = 0 := by
  simp only [dl_huffman_compress]
  generalize huffman_consumed blocksize
    ((huffman_deltas pcount pixels).map (huffman_code_len table)) = n
  generalize hcs1 : insertb (inserta (insertb cs (DL_GFX_BASE ||| DL_GFX_WORD ||| DL_GFX_COMP))
    addr) n = cs1
  have hpos1 : cs1.pos = cs.pos + 5 := by
    rw [← hcs1, insertb_pos, inserta_pos, insertb_pos]
    omega
  have hbit1 : cs1.bitpos = 0 := by
    rw [← hcs1, insertb_bitpos, (inserta_frame _ addr).1, insertb_bitpos, halign]
  obtain ⟨e1, e2, e3⟩ := foldl_dl_huffman_append_offset table
    ((huffman_deltas pcount pixels).take n) cs1 (by omega) (by omega)
  rw [List.map_take] at e1
  obtain ⟨a1, a2⟩ := align_to_byte_pos _ (cs.pos + 5) _ e2 e3 (by rw [e1, hpos1, hbit1]; ring)
  refine ⟨?_, a2⟩
  rw [a1]
  simp only [huffmanHeaderBytes]
  push_cast
  ring

theorem paddedBytes_mono {a b : Nat} (h : a ≤ b) : paddedBytes a ≤ paddedBytes b := by
  simp only [paddedBytes]
  omega

theorem huffman_fit_eq_zero (blocksize : Int) (lens : List Nat) (bits : Nat)
    (h : ¬ ((huffmanHeaderBytes + paddedBytes bits : Nat) : Int) ≤ blocksize) :
    huffman_fit blocksize bits lens = 0 := by
  cases lens with
  | nil => rfl
  | cons len rest =>
    simp only [huffman_fit]
    rw [if_neg]
    intro hfit
    have := paddedBytes_mono (Nat.le_add_right bits len)
    apply h
    push_cast at hfit ⊢
    omega

/-- C12 (counterexample): one pixel, 16-bit codes and `blocksize = 6`.  The pixel is consumed
and the call appends 7 bytes, the 5 header bytes and 2 payload bytes, more than the
requested 6. -/
theorem dl_huffman_compress_exceeds_blocksize :
    huffman_total fixed16Table
    ∧ (freshStream 64).bitpos = 0
    ∧ (dl_huffman_compress fixed16Table (freshStream 64) 0 1 (fun _ => 0x1234) 6).2 = 1
    ∧ (dl_huffman_compress fixed16Table (freshStream 64) 0 1 (fun _ => 0x1234) 6).1.pos
        - (freshStream 64).pos = 7
    ∧ ¬ ((dl_huffman_compress fixed16Table (freshStream 64) 0 1 (fun _ => 0x1234) 6).1.pos
        - (freshStream 64).pos ≤ 6) := by
  refine ⟨fixed16Table_total, rfl, by decide, by decide, by decide⟩

/-- C12 (amended): on a byte-aligned buffer, for every Huffman table, address, pixel run and
requested blocksize, one `dl_huffman_compress` call appends exactly the 5 header bytes plus
the bit-packed codes of the consumed pixels padded to a whole byte.  That number is at most
`blocksize` whenever the header plus the padded code of the first pixel fits in
`blocksize`; when it does not fit, a non-empty run still has exactly its first pixel
consumed and the header plus that padded code is emitted. -/
theorem dl_huffman_compress_blocksize (table : Nat → dl_huffman_code) (cs : dl_cmdstream)
    (addr : Nat) (pcount : Int) (pixels : Nat → Nat) (blocksize : Int)
    (halign : cs.bitpos = 0) :
    (dl_huffman_compress table cs addr pcount pixels blocksize).1.pos - cs.pos
      = ((huffmanHeaderBytes + paddedBytes
          ((((huffman_deltas pcount pixels).map (huffman_code_len table)).take
            (dl_huffman_compress table cs addr pcount pixels blocksize).2).sum) : Nat) : Int)
    ∧ (((huffmanHeaderBytes + paddedBytes
          (((huffman_deltas pcount pixels).map (huffman_code_len table)).headD 0) : Nat) : Int)
          ≤ blocksize →
        (dl_huffman_compress table cs addr pcount pixels blocksize).1.pos - cs.pos ≤ blocksize)
    ∧ (¬ ((huffmanHeaderBytes + paddedBytes
          (((huffman_deltas pcount pixels).map (huffman_code_len table)).headD 0) : Nat) : Int)
          ≤ blocksize → 1 ≤ pcount →
        (dl_huffman_compress table cs addr pcount pixels blocksize).2 = 1
        ∧ (dl_huffman_compress table cs addr pcount pixels blocksize).1.pos - cs.pos
          = ((huffmanHeaderBytes + paddedBytes
              (((huffman_deltas pcount pixels).map (huffman_code_len table)).headD 0) : Nat)
              : Int)) := by
  have hem := (dl_huffman_compress_emitted table cs addr pcount pixels blocksize halign).1
  refine ⟨hem, ?_, ?_⟩
  · intro hfirst
    rw [hem, dl_huffman_compress_count]
    exact huffman_consumed_bound blocksize _ hfirst
  · intro hfirst hp
    have hlen := huffman_lens_length table pcount pixels
    have hn : (dl_huffman_compress table cs addr pcount pixels blocksize).2 = 1 := by
      rw [dl_huffman_compress_count]
      generalize (huffman_deltas pcount pixels).map (huffman_code_len table) = lens
        at hfirst hlen
      cases lens with
      | nil =>
        simp only [List.length_nil] at hlen
        omega
      | cons len rest =>
        simp only [List.headD_cons] at hfirst
        simp only [huffman_consumed, huffman_fit_eq_zero blocksize rest len hfirst]
    refine ⟨hn, ?_⟩
    rw [hem, hn]
    generalize (huffman_deltas pcount pixels).map (huffman_code_len table) = lens
    cases lens with
    | nil => simp
    | cons len rest => simp

/-- Witness for C12 (amended): three pixels, 16-bit codes and `blocksize = 9`; the first code
fits, two pixels are consumed and exactly 9 bytes are appended. -/
theorem dl_huffman_compress_blocksize_witness :
    (freshStream 64).bitpos = 0
    ∧ ((huffmanHeaderBytes + paddedBytes
        (((huffman_deltas 3 (fun _ => 0x1234)).map (huffman_code_len fixed16Table)).headD 0)
          : Nat) : Int) ≤ 9
    ∧ (dl_huffman_compress fixed16Table (freshStream 64) 0 3 (fun _ => 0x1234) 9).2 = 2
    ∧ (dl_huffman_compress fixed16Table (freshStream 64) 0 3 (fun _ => 0x1234) 9).1.pos
        - (freshStream 64).pos ≤ 9 :=
  ⟨rfl, by decide, by decide,
    (dl_huffman_compress_blocksize fixed16Table (freshStream 64) 0 3 (fun _ => 0x1234) 9
      rfl).2.1 (by decide)⟩

end Tubecable
